import Mathlib

/-!
Shallow embedding of the nearest-centroid pizza-image classifier pipeline
(`01_train_test_split.py`, `03_calculating_centroid.py`, `04_evaluate_distance.py`).

Vectors are embedded as `List ℚ` (the pixel data are integers in [0,255]; the
intermediate arithmetic of the scripts is exact on such inputs up to the
idealisation of floating point by rational/real arithmetic).  Square roots
(`np.sqrt`, `np.linalg.norm`) land in `ℝ`.  Filesystem state for the splitter
is a map from paths (component lists, mirroring `os.path.join`) to optional
file contents.
-/

namespace PizzaNC

/-- The fixed class set, `CLASSES = ["pizza_slice", "whole_pizza", "pizza_box"]`,
as an enumerated type. -/
inductive PizzaClass
  | pizza_slice
  | whole_pizza
  | pizza_box
deriving DecidableEq, Fintype

/-- The fixed class ordering `CLASSES` shared by all scripts. -/
def CLASSES : List PizzaClass :=
  [PizzaClass.pizza_slice, PizzaClass.whole_pizza, PizzaClass.pizza_box]

/-- A sample vector (flattened image), embedded as a list of rationals. -/
abbrev Vec := List ℚ

/-! ### 01_train_test_split.py -/

/-- `SPLIT_COUNT = 5` from `01_train_test_split.py`. -/
def SPLIT_COUNT : ℕ := 5

/-- The split of one class's (already shuffled) file list, from
`01_train_test_split.py` lines 45-48: `test_files = files[:SPLIT_COUNT]`,
`train_files = files[SPLIT_COUNT:]`.  Returns `(test_files, train_files)`. -/
def split_class (files : List String) : List String × List String :=
  (files.take SPLIT_COUNT, files.drop SPLIT_COUNT)

/-- The per-class console report printed by `split_dataset`
(lines 20 and 50-52 of `01_train_test_split.py`), as the list of printed lines. -/
def split_class_report (class_name : String) (files : List String) : List String :=
  ["--- Splitting Class: " ++ class_name ++ " ---",
   "  -> Total Images: " ++ toString files.length,
   "  -> Training Set: " ++ toString (files.drop SPLIT_COUNT).length
      ++ " (Calculating Centroids)",
   "  -> Testing Set : " ++ toString (files.take SPLIT_COUNT).length
      ++ " (Testing Distances)"]

/-- `true` when a character list contains `pat` as a contiguous run starting at
its head. -/
def startsList (pat : List Char) : List Char → Bool
  | [] => pat.isEmpty
  | c :: cs =>
    match pat with
    | [] => true
    | p :: ps => p = c && startsList ps cs

/-- `true` when a character list contains `pat` as a contiguous run anywhere. -/
def hasSub (pat : List Char) : List Char → Bool
  | [] => pat.isEmpty
  | c :: cs => startsList pat (c :: cs) || hasSub pat cs

/-- A console line counts as a warning when it mentions "warn" in any of the
usual capitalisations (the scripts tag their diagnostics in the style
`[Error] ...`). -/
def warnLine (line : String) : Bool :=
  hasSub "warn".toList line.toList || hasSub "Warn".toList line.toList ||
    hasSub "WARN".toList line.toList

/-! ### Filesystem model for the copy phase of `split_dataset` -/

/-- A path, as its components (the arguments of `os.path.join`). -/
abbrev Path := List String

/-- Filesystem state: contents of regular files by path. -/
abbrev FS := Path → Option String

/-- `SOURCE_DIR = "raw_data"`. -/
def SOURCE_DIR : String := "raw_data"

/-- `TRAIN_DIR = "dataset_train"`. -/
def TRAIN_DIR : String := "dataset_train"

/-- `TEST_DIR = "dataset_test"`. -/
def TEST_DIR : String := "dataset_test"

/-- The class-name strings of `CLASSES` in `01_train_test_split.py`. -/
def CLASS_NAMES : List String := ["pizza_slice", "whole_pizza", "pizza_box"]

/-- `shutil.copy2(src, dst)`: writes the contents read at `src` to `dst`,
leaving every other path unchanged. -/
def copy2 (src dst : Path) (fs : FS) : FS :=
  fun p => if p = dst then fs src else fs p

/-- The copy phase of one class's split (`01_train_test_split.py` lines 54-59):
copy each test file to `TEST_DIR/<class>/<f>`, then each train file to
`TRAIN_DIR/<class>/<f>`.  `shuffled` is the class's file list after
`random.shuffle`. -/
def split_class_fs (class_name : String) (shuffled : List String) (fs : FS) : FS :=
  let test_files := shuffled.take SPLIT_COUNT
  let train_files := shuffled.drop SPLIT_COUNT
  let fs1 := test_files.foldl
    (fun a f => copy2 [SOURCE_DIR, class_name, f] [TEST_DIR, class_name, f] a) fs
  train_files.foldl
    (fun a f => copy2 [SOURCE_DIR, class_name, f] [TRAIN_DIR, class_name, f] a) fs1

/-- The whole copy phase of `split_dataset`: the per-class copy phases in the
order of `CLASSES`, `shuffles` giving each class's shuffled file list. -/
def split_dataset_fs (shuffles : String → List String) (fs : FS) : FS :=
  CLASS_NAMES.foldl (fun a cn => split_class_fs cn (shuffles cn) a) fs

/-! ### 03_calculating_centroid.py -/

/-- The element-wise sum of the rows of a matrix (the summation inside
`np.mean(matrix_X, axis=0)`); empty matrix gives the empty vector. -/
def matrix_sum : List Vec → Vec
  | [] => []
  | r :: rs => rs.foldl (fun acc row => List.zipWith (· + ·) acc row) r

/-- `np.mean(matrix_X, axis=0)`: the element-wise sum of the rows divided by
the number of rows. -/
def np_mean_axis0 (X : List Vec) : Vec :=
  (matrix_sum X).map (fun s => s / (X.length : ℚ))

/-- `centroid_vector = np.mean(matrix_X, axis=0)` from
`03_calculating_centroid.py` line 32. -/
def centroid_vector (matrix_X : List Vec) : Vec :=
  np_mean_axis0 matrix_X

/-! ### 04_evaluate_distance.py — distances -/

/-- `np.dot(v1, v2)`. -/
def dot (v1 v2 : Vec) : ℚ :=
  (List.zipWith (· * ·) v1 v2).sum

/-- The squared euclidean distance `np.sum((v1 - v2) ** 2)`. -/
def euclidSq (v1 v2 : Vec) : ℚ :=
  ((List.zipWith (· - ·) v1 v2).map (fun x => x ^ 2)).sum

/-- `d_euclidean(v1, v2) = np.sqrt(np.sum((v1 - v2) ** 2))`. -/
noncomputable def d_euclidean (v1 v2 : Vec) : ℝ :=
  Real.sqrt ((euclidSq v1 v2 : ℚ) : ℝ)

/-- `d_manhattan(v1, v2) = np.sum(np.abs(v1 - v2))`. -/
def d_manhattan (v1 v2 : Vec) : ℚ :=
  ((List.zipWith (· - ·) v1 v2).map (fun x => |x|)).sum

/-- `np.linalg.norm(v)`, the 2-norm. -/
noncomputable def norm2 (v : Vec) : ℝ :=
  Real.sqrt ((dot v v : ℚ) : ℝ)

open Classical in
/-- `d_cosine(v1, v2)`: returns `1.0` when either norm is zero, else
`1.0 - dot / (norm_v1 * norm_v2)` (lines 21-30 of `04_evaluate_distance.py`). -/
noncomputable def d_cosine (v1 v2 : Vec) : ℝ :=
  if norm2 v1 = 0 ∨ norm2 v2 = 0 then 1
  else 1 - ((dot v1 v2 : ℚ) : ℝ) / (norm2 v1 * norm2 v2)

/-! ### 04_evaluate_distance.py — argmin decision rule and evaluation loop -/

/-- CPython's `min` over a non-empty iterable with a key function: keep the
current best, replacing it only when the next element's key is strictly
smaller (so the first minimiser wins ties).  `best` is the current best and
the list the remaining elements. -/
def pymin {α β : Type} [LinearOrder β] (f : α → β) : α → List α → α
  | best, [] => best
  | best, k :: ks => pymin f (if f k < f best then k else best) ks

/-- `preds[metric] = min(dists[metric], key=dists[metric].get)` from
`04_evaluate_distance.py` line 89, where the keys of `dists[metric]` were
inserted in the order of `CLASSES`. -/
def predictClass {β : Type} [LinearOrder β] (dist : PizzaClass → β) : PizzaClass :=
  pymin dist PizzaClass.pizza_slice [PizzaClass.whole_pizza, PizzaClass.pizza_box]

/-- The per-metric accumulator state of `run_evaluation`: this metric's
confusion matrix, this metric's correct count, the shared test-image counter,
and this metric's view (true class, predicted class) of the `results` log. -/
structure MetricState where
  cm : PizzaClass → PizzaClass → ℕ
  correct : ℕ
  total : ℕ
  results : List (PizzaClass × PizzaClass)

/-- The initial state: all confusion counts and counters zero, empty log
(`04_evaluate_distance.py` lines 55-61). -/
def initState : MetricState :=
  { cm := fun _ _ => 0, correct := 0, total := 0, results := [] }

/-- One test sample's effect on a metric's accumulators
(`04_evaluate_distance.py` lines 70-111): `total_images += 1`, compute the
distances to every centroid, predict by `min`, bump the correct count when the
prediction matches the true class, bump the confusion-matrix cell
`[true_class][predicted]`, and log the sample. -/
def evalStep {β : Type} [LinearOrder β] (d : Vec → Vec → β)
    (centroids : PizzaClass → Vec) (st : MetricState)
    (sample : PizzaClass × Vec) : MetricState :=
  let pred := predictClass (fun k => d sample.2 (centroids k))
  { cm := fun t p => if t = sample.1 ∧ p = pred then st.cm t p + 1 else st.cm t p,
    correct := if pred = sample.1 then st.correct + 1 else st.correct,
    total := st.total + 1,
    results := st.results ++ [(sample.1, pred)] }

/-- The accumulation loop of `run_evaluation` (lines 63-111), projected to one
metric `d`: process the test samples (pairs of true class and vector) in
order, starting from `initState`. -/
def run_eval {β : Type} [LinearOrder β] (d : Vec → Vec → β)
    (centroids : PizzaClass → Vec) (samples : List (PizzaClass × Vec)) :
    MetricState :=
  samples.foldl (evalStep d centroids) initState

/-- A row sum of a confusion matrix (over the fixed class ordering). -/
def rowSum (st : MetricState) (t : PizzaClass) : ℕ :=
  (CLASSES.map (fun p => st.cm t p)).sum

/-- The grand total of all confusion-matrix entries. -/
def grandTotal (st : MetricState) : ℕ :=
  (CLASSES.map (fun t => rowSum st t)).sum

/-! ### 04_evaluate_distance.py — save phase (`# 5. Save Files`) -/

/-- Python runtime errors relevant to the save phase. -/
inductive PyError
  | zeroDivision
  | indexError
deriving DecidableEq

/-- Python's `/` on numbers: raises `ZeroDivisionError` on a zero denominator. -/
def pydiv (a b : ℚ) : Except PyError ℚ :=
  if b = 0 then Except.error PyError.zeroDivision else Except.ok (a / b)

/-- Python's `l[i]` on a list: raises `IndexError` out of range. -/
def pyindex {α : Type} (l : List α) (i : ℕ) : Except PyError α :=
  match l.get? i with
  | some x => Except.ok x
  | none => Except.error PyError.indexError

/-- `acc = (correct_counts[metric] / total_images) * 100` from
`04_evaluate_distance.py` line 144. -/
def accuracy_of (correct total : ℕ) : Except PyError ℚ :=
  match pydiv (correct : ℚ) (total : ℚ) with
  | Except.ok r => Except.ok (r * 100)
  | Except.error e => Except.error e

/-- The save phase of `run_evaluation` (lines 113-146), reduced to its
fallible numeric skeleton: first `keys = results[0].keys()` (line 118), then
the per-metric accuracy computation.  Returns the accuracy of the given
metric, or the first Python error raised. -/
def save_phase (results : List (PizzaClass × PizzaClass)) (correct total : ℕ) :
    Except PyError ℚ :=
  match pyindex results 0 with
  | Except.error e => Except.error e
  | Except.ok _ =>
    match accuracy_of correct total with
    | Except.ok r => Except.ok r
    | Except.error e => Except.error e

/-! ### Concrete inputs used by witnesses and counterexamples -/

/-- The distance table of the spec's argmin example: A ↦ 5, B ↦ 2, C ↦ 8 along
the fixed class ordering. -/
def exDists : PizzaClass → ℚ
  | PizzaClass.pizza_slice => 5
  | PizzaClass.whole_pizza => 2
  | PizzaClass.pizza_box => 8

/-- A tiny concrete centroid table for witnesses. -/
def exCentroids : PizzaClass → Vec
  | PizzaClass.pizza_slice => [0, 0]
  | PizzaClass.whole_pizza => [10, 0]
  | PizzaClass.pizza_box => [0, 10]

/-- A tiny concrete test set for witnesses. -/
def exSamples : List (PizzaClass × Vec) :=
  [(PizzaClass.pizza_slice, [1, 1]), (PizzaClass.whole_pizza, [9, 0])]

/-- A tiny concrete shuffle table for the filesystem witnesses. -/
def exShuffles : String → List String :=
  fun _ => ["a.png"]

/-- A tiny concrete filesystem for the filesystem witnesses. -/
def exFS : FS :=
  fun p => if p = [SOURCE_DIR, "pizza_slice", "a.png"] then some "IMG" else none

/-! ## Theorems -/

/-- C5: for a shuffled per-class file list of size `n ≥ SPLIT_COUNT = 5`,
`split_dataset` produces a test subset of exactly 5 files, a train subset of
`n − 5` files, with no overlap and no omission. -/
theorem split_dataset_partitions (files shuffled : List String)
    (hnd : files.Nodup) (hk : SPLIT_COUNT ≤ files.length)
    (hp : shuffled.Perm files) :
    (split_class shuffled).1.length = SPLIT_COUNT ∧
    (split_class shuffled).2.length = files.length - SPLIT_COUNT ∧
    ((split_class shuffled).1 ++ (split_class shuffled).2).Perm files ∧
    ∀ f ∈ (split_class shuffled).1, f ∉ (split_class shuffled).2 := by
  have hlen : shuffled.length = files.length := hp.length_eq
  have hnds : shuffled.Nodup := hp.nodup_iff.mpr hnd
  refine ⟨?_, ?_, ?_, ?_⟩
  · rw [split_class, List.length_take, hlen]
    exact Nat.min_eq_left hk
  · rw [split_class, List.length_drop, hlen]
  · rw [split_class]
    rw [List.take_append_drop]
    exact hp
  · have h2 : (shuffled.take SPLIT_COUNT ++ shuffled.drop SPLIT_COUNT).Nodup := by
      rw [List.take_append_drop]; exact hnds
    exact fun f hf hg => List.disjoint_of_nodup_append h2 hf hg

/-- Witness for `split_dataset_partitions` at a six-file class. -/
theorem split_dataset_partitions_witness :
    (split_class ["a", "b", "c", "d", "e", "f"]).1.length = SPLIT_COUNT :=
  (split_dataset_partitions ["a", "b", "c", "d", "e", "f"]
    ["a", "b", "c", "d", "e", "f"] (by decide) (by decide) (List.Perm.refl _)).1

/-- Every class is listed in `CLASSES`. -/
theorem mem_CLASSES (k : PizzaClass) : k ∈ CLASSES := by
  cases k <;> simp [CLASSES]

/-- One step of CPython's `min` agrees with one step of `List.argAux`. -/
theorem argAux_some {α β : Type} [LinearOrder β] (f : α → β) (a b : α) :
    List.argAux (fun x y => f x < f y) (some a) b
      = some (if f b < f a then b else a) := by
  simp only [List.argAux]
  split <;> rfl

/-- CPython's `min` over `a :: l` is Mathlib's first-minimiser `argmin`. -/
theorem pymin_eq_argmin {α β : Type} [LinearOrder β] (f : α → β) :
    ∀ (l : List α) (a : α), List.argmin f (a :: l) = some (pymin f a l) := by
  have key : ∀ (l : List α) (a : α),
      l.foldl (List.argAux fun x y => f x < f y) (some a) = some (pymin f a l) := by
    intro l
    induction l with
    | nil => intro a; rfl
    | cons b t ih =>
      intro a
      rw [List.foldl_cons, argAux_some, ih, pymin]
  intro l a
  have : List.argmin f (a :: l)
      = l.foldl (List.argAux fun x y => f x < f y) (some a) := rfl
  rw [this, key]

/-- `min(dists[metric], key=dists[metric].get)` is the first minimiser over
the fixed class ordering. -/
theorem predictClass_argmin {β : Type} [LinearOrder β] (dist : PizzaClass → β) :
    List.argmin dist CLASSES = some (predictClass dist) :=
  pymin_eq_argmin dist [PizzaClass.whole_pizza, PizzaClass.pizza_box]
    PizzaClass.pizza_slice

/-- C2: for every distance table over the classes, the class predicted by
`run_evaluation` minimises the distance, and any class attaining the minimum
comes no earlier in the fixed class ordering; on the spec's example
`{A: 5, B: 2, C: 8}` the prediction is the second class. -/
theorem prediction_is_first_argmin :
    (∀ (β : Type) [LinearOrder β] (dist : PizzaClass → β),
        (∀ k : PizzaClass, dist (predictClass dist) ≤ dist k) ∧
        (∀ k : PizzaClass, dist k ≤ dist (predictClass dist) →
          CLASSES.indexOf (predictClass dist) ≤ CLASSES.indexOf k)) ∧
    predictClass exDists = PizzaClass.whole_pizza := by
  constructor
  · intro β inst dist
    have h := List.argmin_eq_some_iff.mp (predictClass_argmin dist)
    exact ⟨fun k => h.2.1 k (mem_CLASSES k), fun k hk => h.2.2 k (mem_CLASSES k) hk⟩
  · decide

/-- C9 counterexample: on a three-file class (fewer than the requested
`SPLIT_COUNT = 5`), the test subset does take all files and the train subset
is empty, but no warning line is emitted — the per-class console report of
`split_dataset` mentions no warning — so the claim as stated is false. -/
theorem split_small_warns_cex :
    ¬ ((split_class ["a.png", "b.png", "c.png"]).1 = ["a.png", "b.png", "c.png"] ∧
       (split_class ["a.png", "b.png", "c.png"]).2 = [] ∧
       (split_class_report "pizza_slice" ["a.png", "b.png", "c.png"]).any warnLine
          = true) := by
  decide

/-- C9 (amended): for a per-class file list of size `n < SPLIT_COUNT = 5`,
`split_dataset` does not crash: the test subset contains all `n` files, the
train subset is empty, and the per-class console output is exactly the
standard count report (no dedicated warning line). -/
theorem split_small_takes_all (class_name : String) (files : List String)
    (h : files.length < SPLIT_COUNT) :
    (split_class files).1 = files ∧ (split_class files).2 = [] ∧
    split_class_report class_name files =
      ["--- Splitting Class: " ++ class_name ++ " ---",
       "  -> Total Images: " ++ toString files.length,
       "  -> Training Set: 0 (Calculating Centroids)",
       "  -> Testing Set : " ++ toString files.length ++ " (Testing Distances)"] := by
  have hle : files.length ≤ SPLIT_COUNT := Nat.le_of_lt h
  have htake : files.take SPLIT_COUNT = files := List.take_of_length_le hle
  have hdrop : files.drop SPLIT_COUNT = [] := List.drop_eq_nil_of_le hle
  refine ⟨htake, hdrop, ?_⟩
  rw [split_class_report, htake, hdrop]
  rfl

/-- Witness for `split_small_takes_all` at a three-file class. -/
theorem split_small_takes_all_witness :
    (split_class ["a.png", "b.png", "c.png"]).1 = ["a.png", "b.png", "c.png"] :=
  (split_small_takes_all "pizza_slice" ["a.png", "b.png", "c.png"] (by decide)).1

/-- Two rational lists agreeing in length and at every `getD` position are
equal. -/
theorem ext_getD : ∀ (l₁ l₂ : List ℚ), l₁.length = l₂.length →
    (∀ j, j < l₁.length → l₁.getD j 0 = l₂.getD j 0) → l₁ = l₂ := by
  intro l₁
  induction l₁ with
  | nil =>
    intro l₂ hl _
    exact (List.length_eq_zero.mp hl.symm).symm
  | cons x xs ih =>
    intro l₂ hl h
    cases l₂ with
    | nil => simp at hl
    | cons y ys =>
      have hx : x = y := h 0 (by simp)
      have hxs : xs = ys := by
        refine ih ys (by simpa using hl) ?_
        intro j hj
        simpa using h (j + 1) (by simpa using Nat.succ_lt_succ hj)
      rw [hx, hxs]

/-- `getD` distributes over element-wise addition of equal-length lists. -/
theorem getD_zipWith_add : ∀ (a b : List ℚ), a.length = b.length → ∀ (j : ℕ),
    (List.zipWith (· + ·) a b).getD j 0 = a.getD j 0 + b.getD j 0 := by
  intro a
  induction a with
  | nil =>
    intro b hl j
    have : b = [] := List.length_eq_zero.mp hl.symm
    simp [this]
  | cons x xs ih =>
    intro b hl j
    cases b with
    | nil => simp at hl
    | cons y ys =>
      cases j with
      | zero => simp
      | succ n => simpa using ih ys (by simpa using hl) n

/-- `getD` inside the length commutes with `map`. -/
theorem getD_map (f : ℚ → ℚ) : ∀ (l : List ℚ) (j : ℕ), j < l.length →
    (l.map f).getD j 0 = f (l.getD j 0) := by
  intro l
  induction l with
  | nil => intro j hj; simp at hj
  | cons x xs ih =>
    intro j hj
    cases j with
    | zero => simp
    | succ n => simpa using ih n (by simpa using Nat.lt_of_succ_lt_succ hj)

/-- The row-summing fold of `np.mean(·, axis=0)`: over rows of a common
length `d` it keeps length `d` and sums each column. -/
theorem foldl_zipWith_add_spec :
    ∀ (rs : List Vec) (acc : Vec) (d : ℕ), acc.length = d →
      (∀ r ∈ rs, r.length = d) →
      (rs.foldl (fun a row => List.zipWith (· + ·) a row) acc).length = d ∧
      ∀ j, (rs.foldl (fun a row => List.zipWith (· + ·) a row) acc).getD j 0
          = acc.getD j 0 + (rs.map (fun r => r.getD j 0)).sum := by
  intro rs
  induction rs with
  | nil => intro acc d ha _; exact ⟨ha, by simp⟩
  | cons r rs' ih =>
    intro acc d ha hr
    have hrd : r.length = d := hr r (by simp)
    have hacc' : (List.zipWith (· + ·) acc r).length = d := by
      rw [List.length_zipWith, ha, hrd, Nat.min_self]
    have hr' : ∀ s ∈ rs', s.length = d := fun s hs => hr s (by simp [hs])
    obtain ⟨ihlen, ihget⟩ := ih (List.zipWith (· + ·) acc r) d hacc' hr'
    refine ⟨by simpa using ihlen, ?_⟩
    intro j
    have hz := getD_zipWith_add acc r (by rw [ha, hrd]) j
    simp only [List.foldl_cons]
    rw [ihget j, hz, List.map_cons, List.sum_cons, add_assoc]

/-- Componentwise description of `np.mean(matrix_X, axis=0)` for a non-empty
matrix of rows of a common length `d`. -/
theorem np_mean_axis0_spec (X : List Vec) (d : ℕ)
    (hd : ∀ r ∈ X, r.length = d) (hX : X ≠ []) :
    (np_mean_axis0 X).length = d ∧
    ∀ j, j < d → (np_mean_axis0 X).getD j 0
        = (X.map (fun r => r.getD j 0)).sum / (X.length : ℚ) := by
  obtain ⟨r, rs, rfl⟩ := List.exists_cons_of_ne_nil hX
  have hrd : r.length = d := hd r (by simp)
  have hrs : ∀ s ∈ rs, s.length = d := fun s hs => hd s (by simp [hs])
  obtain ⟨hlen, hget⟩ := foldl_zipWith_add_spec rs r d hrd hrs
  have hms : matrix_sum (r :: rs)
      = rs.foldl (fun a row => List.zipWith (· + ·) a row) r := rfl
  constructor
  · rw [np_mean_axis0, List.length_map, hms, hlen]
  · intro j hj
    rw [np_mean_axis0, hms,
      getD_map (fun s => s / (((r :: rs).length : ℕ) : ℚ)) _ j (by rw [hlen]; exact hj),
      hget j, List.map_cons, List.sum_cons]

/-- C1: the centroid computed by `calculate_and_visualize_centroids` for a
class matrix of `n ≥ 1` rows of dimension `d` is the `d`-vector of
per-dimension arithmetic means; for `n = 1` it is that single row. -/
theorem centroid_is_columnwise_mean (X : List Vec) (d : ℕ)
    (hd : ∀ r ∈ X, r.length = d) (hX : X ≠ []) :
    (centroid_vector X).length = d ∧
    (∀ j, j < d → (centroid_vector X).getD j 0
        = (X.map (fun r => r.getD j 0)).sum / (X.length : ℚ)) ∧
    (∀ r, X = [r] → centroid_vector X = r) := by
  obtain ⟨hlen, hget⟩ := np_mean_axis0_spec X d hd hX
  refine ⟨hlen, hget, ?_⟩
  rintro r rfl
  show (matrix_sum [r]).map (fun s => s / (([r].length : ℕ) : ℚ)) = r
  have : ∀ l : List ℚ, l.map (fun s => s / ((([r].length : ℕ) : ℚ))) = l := by
    intro l
    induction l with
    | nil => rfl
    | cons x xs ihx => simp only [List.map_cons, ihx]; norm_num
  exact this r

/-- Witness for `centroid_is_columnwise_mean` on a 2×2 matrix. -/
theorem centroid_is_columnwise_mean_witness :
    (centroid_vector [[1, 2], [3, 4]]).getD 0 0
      = (([[(1 : ℚ), 2], [3, 4]].map (fun r => r.getD 0 0)).sum)
          / (([[(1 : ℚ), 2], [3, 4]].length : ℚ)) :=
  (centroid_is_columnwise_mean [[1, 2], [3, 4]] 2
    (by intro r hr; simp at hr; rcases hr with rfl | rfl <;> rfl)
    (by simp)).2.1 0 (by norm_num)

/-- Sums of pointwise sums of naturals split. -/
theorem sum_map_add_nat {α : Type} (l : List α) (f g : α → ℕ) :
    (l.map (fun x => f x + g x)).sum = (l.map f).sum + (l.map g).sum := by
  induction l with
  | nil => simp
  | cons a t ih => simp only [List.map_cons, List.sum_cons, ih]; omega

/-- Summing a cell indicator along a confusion-matrix row over the class list
gives the row indicator. -/
theorem rowSum_indicator (t t' q : PizzaClass) :
    (CLASSES.map (fun p => if t = t' ∧ p = q then (1 : ℕ) else 0)).sum
      = if t = t' then 1 else 0 := by
  revert t t' q; decide

/-- Summing a row indicator over the class list gives one. -/
theorem col_indicator (t' : PizzaClass) :
    (CLASSES.map (fun t => if t = t' then (1 : ℕ) else 0)).sum = 1 := by
  revert t'; decide

/-- Each confusion-matrix cell accumulated by the evaluation loop counts the
samples with that true class and that prediction. -/
theorem run_eval_cm_countP {β : Type} [LinearOrder β] (d : Vec → Vec → β)
    (μ : PizzaClass → Vec) :
    ∀ (samples : List (PizzaClass × Vec)) (st : MetricState) (t p : PizzaClass),
      (samples.foldl (evalStep d μ) st).cm t p
        = st.cm t p + samples.countP
            (fun s => decide (t = s.1 ∧ p = predictClass (fun k => d s.2 (μ k)))) := by
  intro samples
  induction samples with
  | nil => intro st t p; simp
  | cons s ss ih =>
    intro st t p
    rw [List.foldl_cons, ih, List.countP_cons]
    simp only [evalStep, decide_eq_true_eq]
    by_cases hc : t = s.1 ∧ p = predictClass (fun k => d s.2 (μ k))
    · simp only [if_pos hc]; omega
    · simp only [if_neg hc]; omega

/-- The correct count accumulated by the evaluation loop counts the samples
whose prediction matches the true class. -/
theorem run_eval_correct_countP {β : Type} [LinearOrder β] (d : Vec → Vec → β)
    (μ : PizzaClass → Vec) :
    ∀ (samples : List (PizzaClass × Vec)) (st : MetricState),
      (samples.foldl (evalStep d μ) st).correct
        = st.correct + samples.countP
            (fun s => decide (predictClass (fun k => d s.2 (μ k)) = s.1)) := by
  intro samples
  induction samples with
  | nil => intro st; simp
  | cons s ss ih =>
    intro st
    rw [List.foldl_cons, ih, List.countP_cons]
    simp only [evalStep, decide_eq_true_eq]
    by_cases hc : predictClass (fun k => d s.2 (μ k)) = s.1
    · simp only [if_pos hc]; omega
    · simp only [if_neg hc]; omega

/-- `total_images` is incremented exactly once per test sample. -/
theorem run_eval_total_len {β : Type} [LinearOrder β] (d : Vec → Vec → β)
    (μ : PizzaClass → Vec) :
    ∀ (samples : List (PizzaClass × Vec)) (st : MetricState),
      (samples.foldl (evalStep d μ) st).total = st.total + samples.length := by
  intro samples
  induction samples with
  | nil => intro st; simp
  | cons s ss ih =>
    intro st
    rw [List.foldl_cons, ih]
    simp only [evalStep, List.length_cons]
    omega

/-- The per-sample log accumulated by the evaluation loop is the map of the
prediction over the samples, in order. -/
theorem run_eval_results_map {β : Type} [LinearOrder β] (d : Vec → Vec → β)
    (μ : PizzaClass → Vec) :
    ∀ (samples : List (PizzaClass × Vec)) (st : MetricState),
      (samples.foldl (evalStep d μ) st).results
        = st.results ++ samples.map
            (fun s => (s.1, predictClass (fun k => d s.2 (μ k)))) := by
  intro samples
  induction samples with
  | nil => intro st; simp
  | cons s ss ih =>
    intro st
    rw [List.foldl_cons, ih]
    simp [evalStep]

/-- Summing the per-cell counts of a row over the class list counts the
samples with that true class. -/
theorem sum_CLASSES_countP (g : PizzaClass × Vec → PizzaClass) (t : PizzaClass) :
    ∀ samples : List (PizzaClass × Vec),
      (CLASSES.map (fun p => samples.countP
          (fun s => decide (t = s.1 ∧ p = g s)))).sum
        = samples.countP (fun s => decide (t = s.1)) := by
  intro samples
  induction samples with
  | nil => simp [CLASSES]
  | cons s ss ih =>
    simp only [List.countP_cons, decide_eq_true_eq]
    rw [sum_map_add_nat CLASSES
      (fun p => ss.countP (fun s => decide (t = s.1 ∧ p = g s)))
      (fun p => if t = s.1 ∧ p = g s then 1 else 0), ih,
      rowSum_indicator t s.1 (g s)]

/-- Summing the per-row counts over the class list counts all samples. -/
theorem sum_CLASSES_countP_fst :
    ∀ samples : List (PizzaClass × Vec),
      (CLASSES.map (fun t => samples.countP (fun s => decide (t = s.1)))).sum
        = samples.length := by
  intro samples
  induction samples with
  | nil => simp [CLASSES]
  | cons s ss ih =>
    simp only [List.countP_cons, decide_eq_true_eq, List.length_cons]
    rw [sum_map_add_nat CLASSES
      (fun t => ss.countP (fun s => decide (t = s.1)))
      (fun t => if t = s.1 then 1 else 0), ih, col_indicator s.1]

/-- Cell description of `run_eval` from the all-zero initial state. -/
theorem run_eval_cm {β : Type} [LinearOrder β] (d : Vec → Vec → β)
    (μ : PizzaClass → Vec) (samples : List (PizzaClass × Vec))
    (t p : PizzaClass) :
    (run_eval d μ samples).cm t p
      = samples.countP
          (fun s => decide (t = s.1 ∧ p = predictClass (fun k => d s.2 (μ k)))) := by
  have h := run_eval_cm_countP d μ samples initState t p
  simpa [run_eval, initState] using h

/-- Correct-count description of `run_eval` from the all-zero initial state. -/
theorem run_eval_correct {β : Type} [LinearOrder β] (d : Vec → Vec → β)
    (μ : PizzaClass → Vec) (samples : List (PizzaClass × Vec)) :
    (run_eval d μ samples).correct
      = samples.countP
          (fun s => decide (predictClass (fun k => d s.2 (μ k)) = s.1)) := by
  have h := run_eval_correct_countP d μ samples initState
  simpa [run_eval, initState] using h

/-- Row sums of the accumulated confusion matrix count the samples with that
true class. -/
theorem rowSum_run {β : Type} [LinearOrder β] (d : Vec → Vec → β)
    (μ : PizzaClass → Vec) (samples : List (PizzaClass × Vec)) (t : PizzaClass) :
    rowSum (run_eval d μ samples) t
      = samples.countP (fun s => decide (t = s.1)) := by
  rw [rowSum]
  have hc : (fun p => (run_eval d μ samples).cm t p)
      = fun p => samples.countP
          (fun s => decide (t = s.1 ∧ p = predictClass (fun k => d s.2 (μ k)))) :=
    funext fun p => run_eval_cm d μ samples t p
  rw [hc, sum_CLASSES_countP (fun s => predictClass (fun k => d s.2 (μ k))) t]

/-- C6: after `run_evaluation` processes the test samples, each
confusion-matrix cell holds the number of test samples with that true class
and that prediction (each cell starting at zero and incremented once per
sample), row sums count the samples with that true label, the grand total of
all entries equals `total_images` which equals the number of samples, and the
correct count counts exactly the samples whose prediction equals their true
class. -/
theorem evaluation_counter_invariants (β : Type) [LinearOrder β]
    (d : Vec → Vec → β) (μ : PizzaClass → Vec)
    (samples : List (PizzaClass × Vec)) :
    (∀ t p : PizzaClass, (run_eval d μ samples).cm t p
        = samples.countP
            (fun s => decide (t = s.1 ∧ p = predictClass (fun k => d s.2 (μ k))))) ∧
    (∀ t : PizzaClass, rowSum (run_eval d μ samples) t
        = samples.countP (fun s => decide (t = s.1))) ∧
    grandTotal (run_eval d μ samples) = (run_eval d μ samples).total ∧
    (run_eval d μ samples).total = samples.length ∧
    (run_eval d μ samples).correct
      = samples.countP
          (fun s => decide (predictClass (fun k => d s.2 (μ k)) = s.1)) := by
  have htot : (run_eval d μ samples).total = samples.length := by
    have h := run_eval_total_len d μ samples initState
    simpa [run_eval, initState] using h
  refine ⟨fun t p => run_eval_cm d μ samples t p,
    fun t => rowSum_run d μ samples t, ?_, htot,
    run_eval_correct d μ samples⟩
  rw [grandTotal, htot]
  have hr : (fun t => rowSum (run_eval d μ samples) t)
      = fun t => samples.countP (fun s => decide (t = s.1)) :=
    funext fun t => rowSum_run d μ samples t
  rw [hr, sum_CLASSES_countP_fst samples]

/-- C8: the centroid is invariant under any permutation of the rows of the
class matrix, and the accumulated confusion matrix, correct count, sample
total and (up to permutation) per-sample prediction log of the evaluation
loop are invariant under any permutation of the test-processing order. -/
theorem order_invariance :
    (∀ (X Y : List Vec) (d : ℕ), (∀ r ∈ X, r.length = d) → X.Perm Y →
        centroid_vector X = centroid_vector Y) ∧
    (∀ (β : Type) [LinearOrder β] (dm : Vec → Vec → β) (μ : PizzaClass → Vec)
        (s1 s2 : List (PizzaClass × Vec)), s1.Perm s2 →
        (run_eval dm μ s1).cm = (run_eval dm μ s2).cm ∧
        (run_eval dm μ s1).correct = (run_eval dm μ s2).correct ∧
        (run_eval dm μ s1).total = (run_eval dm μ s2).total ∧
        (run_eval dm μ s1).results.Perm (run_eval dm μ s2).results) := by
  constructor
  · intro X Y d hd hp
    rcases eq_or_ne X [] with rfl | hX
    · have hY : Y = [] := by
        have := hp.length_eq
        simp only [List.length_nil] at this
        exact List.length_eq_zero.mp this.symm
      rw [hY]
    · have hY : Y ≠ [] := by
        intro h
        subst h
        have := hp.length_eq
        simp only [List.length_nil] at this
        exact hX (List.length_eq_zero.mp this)
      have hdY : ∀ r ∈ Y, r.length = d := fun r hr => hd r (hp.mem_iff.mpr hr)
      obtain ⟨hlX, hgX⟩ := np_mean_axis0_spec X d hd hX
      obtain ⟨hlY, hgY⟩ := np_mean_axis0_spec Y d hdY hY
      apply ext_getD
      · show (np_mean_axis0 X).length = (np_mean_axis0 Y).length
        rw [hlX, hlY]
      · intro j hj
        have hjd : j < d := by
          have : (centroid_vector X).length = d := hlX
          rw [this] at hj
          exact hj
        show (np_mean_axis0 X).getD j 0 = (np_mean_axis0 Y).getD j 0
        rw [hgX j hjd, hgY j hjd, (hp.map (fun r => r.getD j 0)).sum_eq,
          hp.length_eq]
  · intro β instβ dm μ s1 s2 hp
    refine ⟨?_, ?_, ?_, ?_⟩
    · funext t p
      rw [run_eval_cm dm μ s1 t p, run_eval_cm dm μ s2 t p]
      exact hp.countP_eq _
    · rw [run_eval_correct dm μ s1, run_eval_correct dm μ s2]
      exact hp.countP_eq _
    · have h1 := run_eval_total_len dm μ s1 initState
      have h2 := run_eval_total_len dm μ s2 initState
      simp only [run_eval, initState] at h1 h2 ⊢
      rw [h1, h2, hp.length_eq]
    · have h1 := run_eval_results_map dm μ s1 initState
      have h2 := run_eval_results_map dm μ s2 initState
      simp only [run_eval, initState, List.nil_append] at h1 h2 ⊢
      rw [h1, h2]
      exact hp.map _

/-- The squared euclidean distance is non-negative. -/
theorem euclidSq_nonneg (v1 v2 : Vec) : 0 ≤ euclidSq v1 v2 := by
  apply List.sum_nonneg
  intro x hx
  obtain ⟨y, _, rfl⟩ := List.mem_map.mp hx
  exact sq_nonneg y

/-- The squared euclidean distance is symmetric. -/
theorem euclidSq_comm : ∀ v1 v2 : Vec, euclidSq v1 v2 = euclidSq v2 v1 := by
  intro v1
  induction v1 with
  | nil => intro v2; cases v2 <;> rfl
  | cons x xs ih =>
    intro v2
    cases v2 with
    | nil => rfl
    | cons y ys =>
      simp only [euclidSq, List.zipWith_cons_cons, List.map_cons, List.sum_cons]
      have h1 : (x - y) ^ 2 = (y - x) ^ 2 := by ring
      have h2 := ih ys
      simp only [euclidSq] at h2
      rw [h1, h2]

/-- The squared euclidean distance vanishes exactly on equal vectors of equal
dimension. -/
theorem euclidSq_eq_zero_iff : ∀ v1 v2 : Vec, v1.length = v2.length →
    (euclidSq v1 v2 = 0 ↔ v1 = v2) := by
  intro v1
  induction v1 with
  | nil =>
    intro v2 hl
    have : v2 = [] := List.length_eq_zero.mp hl.symm
    subst this
    simp [euclidSq]
  | cons x xs ih =>
    intro v2 hl
    cases v2 with
    | nil => simp at hl
    | cons y ys =>
      simp only [euclidSq, List.zipWith_cons_cons, List.map_cons, List.sum_cons]
      have hrest : 0 ≤ euclidSq xs ys := euclidSq_nonneg xs ys
      simp only [euclidSq] at hrest
      constructor
      · intro h0
        have hx : (x - y) ^ 2 = 0 ∧
            ((List.zipWith (· - ·) xs ys).map (fun x => x ^ 2)).sum = 0 :=
          (add_eq_zero_iff_of_nonneg (sq_nonneg (x - y)) hrest).mp h0
        have hxy : x = y := by
          have := pow_eq_zero_iff (n := 2) (by norm_num) |>.mp hx.1
          linarith [this]
        have hys : xs = ys := (ih ys (by simpa using hl)).mp hx.2
        rw [hxy, hys]
      · intro h
        injection h with h1 h2
        subst h1; subst h2
        have : xs = xs := rfl
        have hz : euclidSq xs xs = 0 := by
          have := (ih xs rfl).mpr rfl
          exact this
        simp only [euclidSq] at hz
        simp [hz]

/-- The manhattan distance is non-negative. -/
theorem d_manhattan_nonneg (v1 v2 : Vec) : 0 ≤ d_manhattan v1 v2 := by
  apply List.sum_nonneg
  intro x hx
  obtain ⟨y, _, rfl⟩ := List.mem_map.mp hx
  exact abs_nonneg y

/-- The manhattan distance is symmetric. -/
theorem d_manhattan_comm : ∀ v1 v2 : Vec, d_manhattan v1 v2 = d_manhattan v2 v1 := by
  intro v1
  induction v1 with
  | nil => intro v2; cases v2 <;> rfl
  | cons x xs ih =>
    intro v2
    cases v2 with
    | nil => rfl
    | cons y ys =>
      simp only [d_manhattan, List.zipWith_cons_cons, List.map_cons, List.sum_cons]
      have h2 := ih ys
      simp only [d_manhattan] at h2
      rw [abs_sub_comm, h2]

/-- The manhattan distance vanishes exactly on equal vectors of equal
dimension. -/
theorem d_manhattan_eq_zero_iff : ∀ v1 v2 : Vec, v1.length = v2.length →
    (d_manhattan v1 v2 = 0 ↔ v1 = v2) := by
  intro v1
  induction v1 with
  | nil =>
    intro v2 hl
    have : v2 = [] := List.length_eq_zero.mp hl.symm
    subst this
    simp [d_manhattan]
  | cons x xs ih =>
    intro v2 hl
    cases v2 with
    | nil => simp at hl
    | cons y ys =>
      simp only [d_manhattan, List.zipWith_cons_cons, List.map_cons, List.sum_cons]
      have hrest : 0 ≤ d_manhattan xs ys := d_manhattan_nonneg xs ys
      simp only [d_manhattan] at hrest
      constructor
      · intro h0
        have hx : |x - y| = 0 ∧
            ((List.zipWith (· - ·) xs ys).map (fun x => |x|)).sum = 0 :=
          (add_eq_zero_iff_of_nonneg (abs_nonneg (x - y)) hrest).mp h0
        have hxy : x = y := by
          have := abs_eq_zero.mp hx.1
          linarith [this]
        have hys : xs = ys := (ih ys (by simpa using hl)).mp hx.2
        rw [hxy, hys]
      · intro h
        injection h with h1 h2
        subst h1; subst h2
        have hz : d_manhattan xs xs = 0 := (ih xs rfl).mpr rfl
        simp only [d_manhattan] at hz
        simp [hz]

/-- `np.dot` is symmetric. -/
theorem dot_comm : ∀ v1 v2 : Vec, dot v1 v2 = dot v2 v1 := by
  intro v1
  induction v1 with
  | nil => intro v2; cases v2 <;> rfl
  | cons x xs ih =>
    intro v2
    cases v2 with
    | nil => rfl
    | cons y ys =>
      simp only [dot, List.zipWith_cons_cons, List.sum_cons]
      have h2 := ih ys
      simp only [dot] at h2
      rw [mul_comm, h2]

/-- `np.dot(v, v)` is a sum of squares, hence non-negative. -/
theorem dot_self_nonneg (v : Vec) : 0 ≤ dot v v := by
  apply List.sum_nonneg
  intro x hx
  have : ∀ w : Vec, x ∈ List.zipWith (· * ·) w w → 0 ≤ x := by
    intro w
    induction w with
    | nil => intro hw; simp at hw
    | cons a t iht =>
      intro hw
      simp only [List.zipWith_cons_cons, List.mem_cons] at hw
      rcases hw with rfl | hw
      · exact mul_self_nonneg a
      · exact iht hw
  exact this v hx

/-- `np.linalg.norm(v)` vanishes exactly when `np.dot(v, v)` does. -/
theorem norm2_eq_zero_iff (v : Vec) : norm2 v = 0 ↔ dot v v = 0 := by
  rw [norm2, Real.sqrt_eq_zero (by exact_mod_cast dot_self_nonneg v)]
  exact_mod_cast Iff.rfl

/-- The dot product of the all-zero vector with itself is zero. -/
theorem dot_replicate_zero : ∀ n : ℕ, dot (List.replicate n (0 : ℚ)) (List.replicate n 0) = 0 := by
  intro n
  induction n with
  | zero => rfl
  | succ m ih =>
    simp only [List.replicate_succ, dot, List.zipWith_cons_cons, List.sum_cons]
    simp only [dot] at ih
    rw [ih]
    ring

/-- C3: `d_cosine` equals `1 − (v1·v2)/(‖v1‖·‖v2‖)` whenever both norms are
nonzero and is exactly `1.0` whenever either norm is zero (so the division is
never reached with a zero denominator); in particular the cosine distance from
an all-zero vector to anything is exactly `1.0`. -/
theorem cosine_zero_norm_guard (v1 v2 : Vec) :
    (norm2 v1 = 0 ∨ norm2 v2 = 0 → d_cosine v1 v2 = 1) ∧
    (norm2 v1 ≠ 0 → norm2 v2 ≠ 0 →
      d_cosine v1 v2 = 1 - ((dot v1 v2 : ℚ) : ℝ) / (norm2 v1 * norm2 v2)) ∧
    (∀ n : ℕ, d_cosine (List.replicate n 0) v2 = 1) := by
  refine ⟨?_, ?_, ?_⟩
  · intro h0
    rw [d_cosine, if_pos h0]
  · intro h1 h2
    rw [d_cosine, if_neg (by tauto)]
  · intro n
    have hz : norm2 (List.replicate n 0) = 0 := by
      rw [norm2, dot_replicate_zero n]
      simp
    rw [d_cosine, if_pos (Or.inl hz)]

/-- C7: euclidean and manhattan distances are non-negative, symmetric, and
vanish exactly on equal vectors of equal dimension; the cosine distance is
symmetric and is exactly zero from any vector of nonzero norm to itself. -/
theorem distance_metric_axioms (v1 v2 : Vec) (h : v1.length = v2.length) :
    (0 ≤ d_euclidean v1 v2 ∧ d_euclidean v1 v2 = d_euclidean v2 v1 ∧
      (d_euclidean v1 v2 = 0 ↔ v1 = v2)) ∧
    (0 ≤ d_manhattan v1 v2 ∧ d_manhattan v1 v2 = d_manhattan v2 v1 ∧
      (d_manhattan v1 v2 = 0 ↔ v1 = v2)) ∧
    d_cosine v1 v2 = d_cosine v2 v1 ∧
    (norm2 v1 ≠ 0 → d_cosine v1 v1 = 0) := by
  refine ⟨⟨Real.sqrt_nonneg _, ?_, ?_⟩,
    ⟨d_manhattan_nonneg v1 v2, d_manhattan_comm v1 v2,
      d_manhattan_eq_zero_iff v1 v2 h⟩, ?_, ?_⟩
  · rw [d_euclidean, d_euclidean, euclidSq_comm]
  · rw [d_euclidean,
      Real.sqrt_eq_zero (by exact_mod_cast euclidSq_nonneg v1 v2)]
    rw [show (((euclidSq v1 v2 : ℚ) : ℝ) = 0) ↔ euclidSq v1 v2 = 0 from by
      exact_mod_cast Iff.rfl]
    exact euclidSq_eq_zero_iff v1 v2 h
  · by_cases h0 : norm2 v1 = 0 ∨ norm2 v2 = 0
    · rw [d_cosine, if_pos h0, d_cosine, if_pos h0.symm]
    · rw [d_cosine, if_neg h0, d_cosine, if_neg (by tauto)]
      rw [dot_comm v1 v2, mul_comm]
  · intro hn
    have hd0 : dot v1 v1 ≠ 0 := fun hc => hn ((norm2_eq_zero_iff v1).mpr hc)
    rw [d_cosine, if_neg (by tauto)]
    rw [show norm2 v1 * norm2 v1 = ((dot v1 v1 : ℚ) : ℝ) from
      Real.mul_self_sqrt (by exact_mod_cast dot_self_nonneg v1)]
    rw [div_self (by exact_mod_cast hd0)]
    ring

/-- Witness for `distance_metric_axioms` at a pair of 2-vectors. -/
theorem distance_metric_axioms_witness :
    d_manhattan [1, 2] [4, 0] = d_manhattan [4, 0] [1, 2] :=
  (distance_metric_axioms [1, 2] [4, 0] rfl).2.1.2.1

/-- C4 (observed behaviour): with zero test samples, the save phase of
`run_evaluation` raises an unhandled `IndexError` at `results[0].keys()`, and
the accuracy expression `correct/total` by itself raises an unhandled
`ZeroDivisionError`; no guard makes the failure a reported, defined error.
With a nonzero total the accuracy is `(correct/total)·100`, e.g. 7 of 10
gives 70. -/
theorem save_phase_zero_samples_crash :
    save_phase [] 0 0 = Except.error PyError.indexError ∧
    accuracy_of 7 0 = Except.error PyError.zeroDivision ∧
    accuracy_of 7 10 = Except.ok 70 := by
  refine ⟨rfl, ?_, ?_⟩
  · rw [accuracy_of, pydiv, if_pos (by norm_num)]
  · rw [accuracy_of, pydiv, if_neg (by norm_num)]
    norm_num

/-- Three-component paths with different first components differ. -/
theorem path3_ne_head {a b c a' b' c' : String} (h : a ≠ a') :
    ([a, b, c] : Path) ≠ [a', b', c'] := by
  intro hc
  injection hc with h1 _
  exact h h1

/-- Three-component paths with different second components differ. -/
theorem path3_ne_mid {a b c a' b' c' : String} (h : b ≠ b') :
    ([a, b, c] : Path) ≠ [a', b', c'] := by
  intro hc
  injection hc with _ h2
  injection h2 with h2 _
  exact h h2

/-- A fold of per-file copies into `dir/cn/` leaves every path outside its
write set unchanged. -/
theorem foldl_copy2_frame (sdir dir cn : String) :
    ∀ (L : List String) (fs : FS) (p : Path), (∀ f ∈ L, p ≠ [dir, cn, f]) →
      (L.foldl (fun a f => copy2 [sdir, cn, f] [dir, cn, f] a) fs) p = fs p := by
  intro L
  induction L with
  | nil => intro fs p _; rfl
  | cons g L' ih =>
    intro fs p hp
    rw [List.foldl_cons, ih _ p (fun f hf => hp f (by simp [hf]))]
    simp only [copy2]
    rw [if_neg (hp g (by simp))]

/-- A fold of per-file copies into `dir/cn/` writes each listed file's
destination with the contents read at its source. -/
theorem foldl_copy2_write (sdir dir cn : String) (hdir : dir ≠ sdir) :
    ∀ (L : List String) (fs : FS), L.Nodup → ∀ f ∈ L,
      (L.foldl (fun a g => copy2 [sdir, cn, g] [dir, cn, g] a) fs) [dir, cn, f]
        = fs [sdir, cn, f] := by
  intro L
  induction L with
  | nil => intro fs _ f hf; simp at hf
  | cons g L' ih =>
    intro fs hnd f hf
    rw [List.foldl_cons]
    rcases List.mem_cons.mp hf with rfl | hf'
    · have hg : f ∉ L' := (List.nodup_cons.mp hnd).1
      have hfr : ∀ f' ∈ L', ([dir, cn, f] : Path) ≠ [dir, cn, f'] := by
        intro f' hf' hc
        have hgf : f = f' := by simpa using hc
        exact hg (hgf ▸ hf')
      rw [foldl_copy2_frame sdir dir cn L' _ _ hfr]
      simp [copy2]
    · have hnd' : L'.Nodup := (List.nodup_cons.mp hnd).2
      rw [ih _ hnd' f hf']
      simp only [copy2]
      rw [if_neg (path3_ne_head (fun hc => hdir hc.symm))]

/-- The copy phase of one class leaves every path outside that class's test
and train destinations unchanged. -/
theorem split_class_fs_frame (cn : String) (sh : List String) (fs : FS) (p : Path)
    (hT : ∀ f, p ≠ [TEST_DIR, cn, f]) (hR : ∀ f, p ≠ [TRAIN_DIR, cn, f]) :
    split_class_fs cn sh fs p = fs p := by
  simp only [split_class_fs]
  rw [foldl_copy2_frame SOURCE_DIR TRAIN_DIR cn _ _ p (fun f _ => hR f),
    foldl_copy2_frame SOURCE_DIR TEST_DIR cn _ _ p (fun f _ => hT f)]

/-- The copy phase of one class fills each test and train destination with
the contents read at the matching source path. -/
theorem split_class_fs_write (cn : String) (sh : List String) (fs : FS)
    (hnd : sh.Nodup) :
    (∀ f ∈ sh.take SPLIT_COUNT,
        split_class_fs cn sh fs [TEST_DIR, cn, f] = fs [SOURCE_DIR, cn, f]) ∧
    (∀ f ∈ sh.drop SPLIT_COUNT,
        split_class_fs cn sh fs [TRAIN_DIR, cn, f] = fs [SOURCE_DIR, cn, f]) := by
  have hndT : (sh.take SPLIT_COUNT).Nodup := hnd.sublist (List.take_sublist _ _)
  have hndR : (sh.drop SPLIT_COUNT).Nodup := hnd.sublist (List.drop_sublist _ _)
  constructor
  · intro f hf
    simp only [split_class_fs]
    rw [foldl_copy2_frame SOURCE_DIR TRAIN_DIR cn _ _ _
      (fun f' _ => path3_ne_head (by decide))]
    exact foldl_copy2_write SOURCE_DIR TEST_DIR cn (by decide) _ fs hndT f hf
  · intro f hf
    simp only [split_class_fs]
    rw [foldl_copy2_write SOURCE_DIR TRAIN_DIR cn (by decide) _ _ hndR f hf]
    rw [foldl_copy2_frame SOURCE_DIR TEST_DIR cn _ fs _
      (fun f' _ => path3_ne_head (by decide))]

/-- The full copy phase is the three per-class copy phases in class order. -/
theorem split_dataset_fs_unfold (shuffles : String → List String) (fs : FS) :
    split_dataset_fs shuffles fs
      = split_class_fs "pizza_box" (shuffles "pizza_box")
          (split_class_fs "whole_pizza" (shuffles "whole_pizza")
            (split_class_fs "pizza_slice" (shuffles "pizza_slice") fs)) := rfl

/-- C10: `split_dataset` never removes or modifies a file of the source
directory — every path under `raw_data` reads the same before and after — and
each listed file of every class is copied (not moved): its test or train
destination afterwards holds exactly the contents read at its source path. -/
theorem split_preserves_source (shuffles : String → List String) (fs : FS) :
    (∀ p : Path, p.head? = some SOURCE_DIR → split_dataset_fs shuffles fs p = fs p) ∧
    (∀ cn ∈ CLASS_NAMES, (shuffles cn).Nodup →
      (∀ f ∈ (shuffles cn).take SPLIT_COUNT,
          split_dataset_fs shuffles fs [TEST_DIR, cn, f] = fs [SOURCE_DIR, cn, f]) ∧
      (∀ f ∈ (shuffles cn).drop SPLIT_COUNT,
          split_dataset_fs shuffles fs [TRAIN_DIR, cn, f] = fs [SOURCE_DIR, cn, f])) := by
  have hsrcT : ∀ (p : Path), p.head? = some SOURCE_DIR →
      ∀ cn f, p ≠ [TEST_DIR, cn, f] := by
    intro p hp cn f hc
    rw [hc] at hp
    simp only [List.head?_cons] at hp
    exact absurd hp (by decide)
  have hsrcR : ∀ (p : Path), p.head? = some SOURCE_DIR →
      ∀ cn f, p ≠ [TRAIN_DIR, cn, f] := by
    intro p hp cn f hc
    rw [hc] at hp
    simp only [List.head?_cons] at hp
    exact absurd hp (by decide)
  constructor
  · intro p hp
    rw [split_dataset_fs_unfold,
      split_class_fs_frame _ _ _ p (hsrcT p hp _) (hsrcR p hp _),
      split_class_fs_frame _ _ _ p (hsrcT p hp _) (hsrcR p hp _),
      split_class_fs_frame _ _ _ p (hsrcT p hp _) (hsrcR p hp _)]
  · intro cn hcn hnd
    have hsrc : ∀ cn' f, (([SOURCE_DIR, cn', f] : Path)).head? = some SOURCE_DIR :=
      fun _ _ => rfl
    simp only [CLASS_NAMES, List.mem_cons, List.not_mem_nil, or_false] at hcn
    rcases hcn with rfl | rfl | rfl
    · obtain ⟨hwT, hwR⟩ := split_class_fs_write _ (shuffles "pizza_slice") fs hnd
      constructor
      · intro f hf
        rw [split_dataset_fs_unfold,
          split_class_fs_frame _ _ _ _ (fun f' => path3_ne_mid (by decide))
            (fun f' => path3_ne_head (by decide)),
          split_class_fs_frame _ _ _ _ (fun f' => path3_ne_mid (by decide))
            (fun f' => path3_ne_head (by decide)),
          hwT f hf]
      · intro f hf
        rw [split_dataset_fs_unfold,
          split_class_fs_frame _ _ _ _ (fun f' => path3_ne_head (by decide))
            (fun f' => path3_ne_mid (by decide)),
          split_class_fs_frame _ _ _ _ (fun f' => path3_ne_head (by decide))
            (fun f' => path3_ne_mid (by decide)),
          hwR f hf]
    · obtain ⟨hwT, hwR⟩ := split_class_fs_write _ (shuffles "whole_pizza")
        (split_class_fs "pizza_slice" (shuffles "pizza_slice") fs) hnd
      constructor
      · intro f hf
        rw [split_dataset_fs_unfold,
          split_class_fs_frame _ _ _ _ (fun f' => path3_ne_mid (by decide))
            (fun f' => path3_ne_head (by decide)),
          hwT f hf,
          split_class_fs_frame _ _ _ _ (hsrcT _ (hsrc _ f) _) (hsrcR _ (hsrc _ f) _)]
      · intro f hf
        rw [split_dataset_fs_unfold,
          split_class_fs_frame _ _ _ _ (fun f' => path3_ne_head (by decide))
            (fun f' => path3_ne_mid (by decide)),
          hwR f hf,
          split_class_fs_frame _ _ _ _ (hsrcT _ (hsrc _ f) _) (hsrcR _ (hsrc _ f) _)]
    · obtain ⟨hwT, hwR⟩ := split_class_fs_write _ (shuffles "pizza_box")
        (split_class_fs "whole_pizza" (shuffles "whole_pizza")
          (split_class_fs "pizza_slice" (shuffles "pizza_slice") fs)) hnd
      constructor
      · intro f hf
        rw [split_dataset_fs_unfold, hwT f hf,
          split_class_fs_frame _ _ _ _ (hsrcT _ (hsrc _ f) _) (hsrcR _ (hsrc _ f) _),
          split_class_fs_frame _ _ _ _ (hsrcT _ (hsrc _ f) _) (hsrcR _ (hsrc _ f) _)]
      · intro f hf
        rw [split_dataset_fs_unfold, hwR f hf,
          split_class_fs_frame _ _ _ _ (hsrcT _ (hsrc _ f) _) (hsrcR _ (hsrc _ f) _),
          split_class_fs_frame _ _ _ _ (hsrcT _ (hsrc _ f) _) (hsrcR _ (hsrc _ f) _)]

end PizzaNC
